import Mathlib

/-!
# Verification of `dark/reads.py`

A shallow embedding, in Lean 4, of the read data model and the operations of
`dark/reads.py`: the complement-table construction and reverse complementation,
six-frame translation, the ORF-detection state machine, the maximum-ORF-length
query, `Reads.save`, and the `Reads.filter` pipeline.  Python strings are
embedded as `List Char` (identifiers, which are only concatenated, as
`String`); code that raises `ValueError` is embedded as `Except String`
returning functions; generators are embedded as functions returning
`Except String (List _)`, the list of everything the generator yields, or the
error it raises mid-iteration.
-/

namespace DarkReads

/-- A read (`Read.__init__`'s stored fields): an identifier, a sequence and an
optional quality string. -/
structure Read where
  id : String
  sequence : List Char
  quality : Option (List Char)
deriving DecidableEq, Repr

/-- `Read.__init__`: building a read raises `ValueError` when a quality string
is given whose length differs from the sequence length. -/
def mkRead (id : String) (sequence : List Char) (quality : Option (List Char)) :
    Except String Read :=
  match quality with
  | some q =>
      if q.length ≠ sequence.length then
        .error ("Invalid read: sequence length (" ++ (toString sequence.length ++
          (") != quality length (" ++ (toString q.length ++ ")"))))
      else
        .ok ⟨id, sequence, quality⟩
  | none => .ok ⟨id, sequence, none⟩

/-- An ORF fragment (`AAReadORF`'s stored fields): the sub-read it denotes plus
the `[start, stop)` range in the original read and the two openness flags. -/
structure AAReadORF where
  id : String
  sequence : List Char
  start : Nat
  stop : Nat
  openLeft : Bool
  openRight : Bool
deriving DecidableEq, Repr

/-- `AAReadORF.__init__`: validates `stop ≤ len(originalRead)` and
`start ≤ stop` (the Python code also checks `start < 0`, which cannot occur
for the `Nat` indices produced by `enumerate`), builds the bracketed
identifier `'%s-%s%d:%d%s'` and slices `originalRead.sequence[start:stop]`. -/
def AAReadORF.mk? (origId : String) (origSeq : List Char) (start stop : Nat)
    (openLeft openRight : Bool) : Except String AAReadORF :=
  if stop > origSeq.length then
    .error ("stop offset (" ++ (toString stop ++ (") > original read length (" ++
      (toString origSeq.length ++ ")"))))
  else if start > stop then
    .error ("start offset (" ++ (toString start ++ (") greater than stop offset (" ++
      (toString stop ++ ")"))))
  else
    .ok { id := origId ++ ("-" ++ ((if openLeft then "(" else "[") ++
            (toString start ++ (":" ++ (toString stop ++
              (if openRight then ")" else "]")))))),
          sequence := (origSeq.drop start).take (stop - start),
          start := start, stop := stop,
          openLeft := openLeft, openRight := openRight }

/-- The state of the ORF scan in `AARead.ORFs`. -/
structure ORFState where
  ORFStart : Option Nat
  openLeft : Bool
  seenStart : Bool
deriving DecidableEq, Repr

/-- The state part of the loop body of `AARead.ORFs` for the residue at
index `i`: `'M'` clears `openLeft` and sets `seenStart`; `'*'` resets
`ORFStart` only when a fragment was emitted (`ORFStart` set and
`i - ORFStart > 0`) and always clears `openLeft` and `seenStart`; any other
residue records `ORFStart := i` when `(seenStart or openLeft)` holds and
`ORFStart` is unset. -/
def ORFStep (st : ORFState) (i : Nat) (residue : Char) : ORFState :=
  if residue = 'M' then
    { st with openLeft := false, seenStart := true }
  else if residue = '*' then
    match st.ORFStart with
    | some s => if i - s > 0 then ⟨none, false, false⟩ else ⟨some s, false, false⟩
    | none => ⟨none, false, false⟩
  else
    if (st.seenStart || st.openLeft) ∧ st.ORFStart = none then
      { st with ORFStart := some i }
    else st

/-- The yield part of the loop body of `AARead.ORFs`: only a `'*'` residue can
emit a fragment, namely `[ORFStart, i)` with `openRight = false`, when
`ORFStart` is set and `i - ORFStart > 0`. -/
def ORFEmit (origId : String) (origSeq : List Char) (st : ORFState) (i : Nat)
    (residue : Char) : Except String (Option AAReadORF) :=
  if residue = 'M' then .ok none
  else if residue = '*' then
    match st.ORFStart with
    | some s =>
        if i - s > 0 then (AAReadORF.mk? origId origSeq s i st.openLeft false).map some
        else .ok none
    | none => .ok none
  else .ok none

/-- The loop of `AARead.ORFs` over the remaining residues, where `i` is the
index of the first residue of `rest` in the original sequence.  After the last
residue, the final fragment `[ORFStart, length)` with `openRight = true` is
emitted when `(seenStart or openLeft)` holds, `ORFStart` is set and
`length - ORFStart > 0`. -/
def ORFsAux (origId : String) (origSeq : List Char) :
    List Char → Nat → ORFState → Except String (List AAReadORF)
  | [], _, st =>
      if st.seenStart || st.openLeft then
        match st.ORFStart with
        | some s =>
            if origSeq.length - s > 0 then
              (AAReadORF.mk? origId origSeq s origSeq.length st.openLeft true).map
                (fun o => [o])
            else .ok []
        | none => .ok []
      else .ok []
  | c :: rest, i, st => do
      let em ← ORFEmit origId origSeq st i c
      let out ← ORFsAux origId origSeq rest (i + 1) (ORFStep st i c)
      pure (match em with | some o => o :: out | none => out)

/-- `AARead.ORFs`: the list of fragments the generator yields for the read
`(origId, s)` (or the `ValueError` it would raise), starting from
`ORFStart = None`, `openLeft = True`, `seenStart = False`. -/
def ORFs (origId : String) (s : List Char) : Except String (List AAReadORF) :=
  ORFsAux origId s s 0 ⟨none, true, false⟩

/-- The bare state scan of `AARead.ORFs`: the machine state after consuming
the remaining residues, yields ignored. -/
def ORFScan : List Char → Nat → ORFState → ORFState
  | [], _, st => st
  | c :: rest, i, st => ORFScan rest (i + 1) (ORFStep st i c)

/-- The state transition exactly as the specification words it.  It differs
from `ORFStep` in one place only: at a `'*'` residue the specification resets
`ORFStart` to unset *in all cases*, while the code resets it only on the
branch that emitted a fragment. -/
def specORFStep (st : ORFState) (i : Nat) (residue : Char) : ORFState :=
  if residue = 'M' then
    { st with openLeft := false, seenStart := true }
  else if residue = '*' then
    ⟨none, false, false⟩
  else
    if (st.seenStart || st.openLeft) ∧ st.ORFStart = none then
      { st with ORFStart := some i }
    else st

/-- The specification's ORF machine run: same emissions as the code
(`ORFEmit`, including the final open-right fragment), but stepping the state
with `specORFStep`. -/
def specORFsAux (origId : String) (origSeq : List Char) :
    List Char → Nat → ORFState → Except String (List AAReadORF)
  | [], _, st =>
      if st.seenStart || st.openLeft then
        match st.ORFStart with
        | some s =>
            if origSeq.length - s > 0 then
              (AAReadORF.mk? origId origSeq s origSeq.length st.openLeft true).map
                (fun o => [o])
            else .ok []
        | none => .ok []
      else .ok []
  | c :: rest, i, st => do
      let em ← ORFEmit origId origSeq st i c
      let out ← specORFsAux origId origSeq rest (i + 1) (specORFStep st i c)
      pure (match em with | some o => o :: out | none => out)

/-- The specification's ORF state machine on a whole read. -/
def specORFs (origId : String) (s : List Char) : Except String (List AAReadORF) :=
  specORFsAux origId s s 0 ⟨none, true, false⟩

/-- Invariant of the ORF scan: a recorded `ORFStart` always lies strictly
before the current index. -/
def ORFStartLt (st : ORFState) (i : Nat) : Prop :=
  ∀ j, st.ORFStart = some j → j < i

theorem ORFStep_startLt {st : ORFState} {i : Nat} (c : Char) (h : ORFStartLt st i) :
    ORFStartLt (ORFStep st i c) (i + 1) := by
  intro j hj
  unfold ORFStep at hj
  by_cases hM : c = 'M'
  · rw [if_pos hM] at hj
    exact Nat.lt_succ_of_lt (h j hj)
  · rw [if_neg hM] at hj
    by_cases hS : c = '*'
    · rw [if_pos hS] at hj
      rcases ho : st.ORFStart with _ | s <;> simp only [ho] at hj
      · simp at hj
      · split at hj
        · simp at hj
        · simp at hj
          have hs := h s ho
          omega
    · rw [if_neg hS] at hj
      split at hj
      · simp at hj
        omega
      · exact Nat.lt_succ_of_lt (h j hj)

theorem ORFStep_eq_specORFStep {st : ORFState} {i : Nat} (c : Char)
    (h : ORFStartLt st i) : ORFStep st i c = specORFStep st i c := by
  unfold ORFStep specORFStep
  by_cases hM : c = 'M'
  · rw [if_pos hM, if_pos hM]
  · rw [if_neg hM, if_neg hM]
    by_cases hS : c = '*'
    · rw [if_pos hS, if_pos hS]
      rcases ho : st.ORFStart with _ | s
      · rfl
      · have : i - s > 0 := Nat.sub_pos_of_lt (h s ho)
        simp [this]
    · rw [if_neg hS, if_neg hS]

theorem ORFsAux_eq_specORFsAux (origId : String) (origSeq : List Char) :
    ∀ (rest : List Char) (i : Nat) (st : ORFState), ORFStartLt st i →
      ORFsAux origId origSeq rest i st = specORFsAux origId origSeq rest i st := by
  intro rest
  induction rest with
  | nil => intro i st _; rfl
  | cons c rest ih =>
      intro i st hlt
      have hstep := @ORFStep_eq_specORFStep st i c hlt
      simp only [ORFsAux, specORFsAux, hstep,
        ih (i + 1) (specORFStep st i c) (hstep ▸ ORFStep_startLt c hlt)]

theorem AAReadORF.mk?_ok_fields {origId : String} {origSeq : List Char}
    {start stop : Nat} {ol orr : Bool} {o : AAReadORF}
    (h : AAReadORF.mk? origId origSeq start stop ol orr = .ok o) :
    o.start = start ∧ o.stop = stop ∧ o.openLeft = ol ∧ o.openRight = orr := by
  unfold AAReadORF.mk? at h
  split at h
  · exact Except.noConfusion h
  · split at h
    · exact Except.noConfusion h
    · injection h with h
      subst h
      exact ⟨rfl, rfl, rfl, rfl⟩

theorem ORFEmit_ok_some {origId : String} {origSeq : List Char} {st : ORFState}
    {i : Nat} {c : Char} {o : AAReadORF}
    (h : ORFEmit origId origSeq st i c = .ok (some o)) :
    ∃ s, st.ORFStart = some s ∧ i - s > 0 ∧
      AAReadORF.mk? origId origSeq s i st.openLeft false = .ok o := by
  unfold ORFEmit at h
  split at h
  · simp at h
  · split at h
    · rcases ho : st.ORFStart with _ | s <;> simp only [ho] at h
      · simp at h
      · split at h
        · rcases hmk : AAReadORF.mk? origId origSeq s i st.openLeft false with e | o' <;>
            rw [hmk] at h <;> simp [Except.map] at h
          subst h
          exact ⟨s, rfl, by assumption, hmk⟩
        · simp at h
    · simp at h

theorem ORFsAux_start_lt_stop (origId : String) (origSeq : List Char) :
    ∀ (rest : List Char) (i : Nat) (st : ORFState) (l : List AAReadORF),
      ORFsAux origId origSeq rest i st = .ok l → ∀ o ∈ l, o.start < o.stop := by
  intro rest
  induction rest with
  | nil =>
      intro i st l h o ho
      unfold ORFsAux at h
      split at h
      · split at h
        · rename_i s hs
          split at h
          · rcases hmk : AAReadORF.mk? origId origSeq s origSeq.length st.openLeft true
              with e | o' <;> rw [hmk] at h <;> simp [Except.map] at h
            subst h
            simp at ho
            obtain ⟨h1, h2, _, _⟩ := AAReadORF.mk?_ok_fields hmk
            subst ho
            omega
          · injection h with h
            subst h
            simp at ho
        · injection h with h
          subst h
          simp at ho
      · injection h with h
        subst h
        simp at ho
  | cons c rest ih =>
      intro i st l h o ho
      rw [ORFsAux] at h
      rcases hem : ORFEmit origId origSeq st i c with e | em <;>
        rw [hem] at h <;> simp only [bind, Except.bind] at h
      · exact Except.noConfusion h
      · rcases hout : ORFsAux origId origSeq rest (i + 1) (ORFStep st i c) with e | out <;>
          rw [hout] at h
        · exact Except.noConfusion h
        · simp only [pure, Except.pure] at h
          injection h with h
          subst h
          rcases em with _ | o0
          · exact ih (i + 1) (ORFStep st i c) out hout o ho
          · rcases List.mem_cons.1 ho with rfl | ho
            · obtain ⟨s, _, hpos, hmk⟩ := ORFEmit_ok_some hem
              obtain ⟨h1, h2, _, _⟩ := AAReadORF.mk?_ok_fields hmk
              omega
            · exact ih (i + 1) (ORFStep st i c) out hout o ho

theorem ORFsAux_last_fragment (origId : String) (origSeq : List Char) :
    ∀ (rest : List Char) (i : Nat) (st : ORFState) (l : List AAReadORF) (j : Nat),
      ORFsAux origId origSeq rest i st = .ok l →
      ((ORFScan rest i st).seenStart || (ORFScan rest i st).openLeft) = true →
      (ORFScan rest i st).ORFStart = some j → origSeq.length - j > 0 →
      ∃ body frag, l = body ++ [frag] ∧
        AAReadORF.mk? origId origSeq j origSeq.length
          (ORFScan rest i st).openLeft true = .ok frag := by
  intro rest
  induction rest with
  | nil =>
      intro i st l j h hcond hstart hlen
      simp only [ORFScan] at hcond hstart ⊢
      unfold ORFsAux at h
      rw [if_pos hcond] at h
      simp only [hstart] at h
      rw [if_pos hlen] at h
      rcases hmk : AAReadORF.mk? origId origSeq j origSeq.length st.openLeft true
        with e | frag <;> rw [hmk] at h <;> simp [Except.map] at h
      subst h
      exact ⟨[], frag, rfl, rfl⟩
  | cons c rest ih =>
      intro i st l j h hcond hstart hlen
      simp only [ORFScan] at hcond hstart ⊢
      rw [ORFsAux] at h
      rcases hem : ORFEmit origId origSeq st i c with e | em <;>
        rw [hem] at h <;> simp only [bind, Except.bind] at h
      · exact Except.noConfusion h
      · rcases hout : ORFsAux origId origSeq rest (i + 1) (ORFStep st i c) with e | out <;>
          rw [hout] at h
        · exact Except.noConfusion h
        · simp only [pure, Except.pure] at h
          injection h with h
          subst h
          obtain ⟨body, frag, hl, hmk⟩ :=
            ih (i + 1) (ORFStep st i c) out j hout hcond hstart hlen
          rcases em with _ | o0
          · exact ⟨body, frag, hl, hmk⟩
          · exact ⟨o0 :: body, frag, by simp [hl], hmk⟩

/-- Membership of the running maximum: `foldl max x xs` is `x` or one of `xs`. -/
theorem foldl_max_mem (xs : List Nat) : ∀ x, xs.foldl max x ∈ x :: xs := by
  induction xs with
  | nil => intro x; simp [List.foldl]
  | cons a xs ih =>
      intro x
      have h := ih (max x a)
      simp only [List.foldl]
      rcases List.mem_cons.1 h with h | h
      · rcases max_choice x a with hm | hm <;> rw [h, hm]
        · exact List.mem_cons_self _ _
        · exact List.mem_cons_of_mem _ (List.mem_cons_self _ _)
      · exact List.mem_cons_of_mem _ (List.mem_cons_of_mem _ h)

/-- The running maximum bounds every element it has seen. -/
theorem le_foldl_max (xs : List Nat) : ∀ x y, y ∈ x :: xs → y ≤ xs.foldl max x := by
  induction xs with
  | nil =>
      intro x y hy
      simp at hy
      simp [hy, List.foldl]
  | cons a xs ih =>
      intro x y hy
      simp only [List.foldl]
      rcases List.mem_cons.1 hy with heq | hy
      · rw [heq]
        exact le_trans (Nat.le_max_left x a)
          (ih (max x a) (max x a) (List.mem_cons_self _ _))
      · rcases List.mem_cons.1 hy with heq | hy
        · rw [heq]
          exact le_trans (Nat.le_max_right x a)
            (ih (max x a) (max x a) (List.mem_cons_self _ _))
        · exact ih (max x a) y (List.mem_cons_of_mem _ hy)

/-- `TranslatedRead.maximumORFLength`: `max(len(orf) for orf in self.ORFs())`,
where `len(orf)` is the length of the fragment's sequence; Python's `max` on
an empty iterable raises `ValueError: max() arg is an empty sequence`. -/
def maximumORFLength (origId : String) (s : List Char) : Except String Nat :=
  (ORFs origId s).bind fun orfs =>
    match orfs.map (fun o => o.sequence.length) with
    | [] => .error "max() arg is an empty sequence"
    | x :: xs => .ok (xs.foldl max x)

/-- C1: `AARead.ORFs` implements the specified state machine: starting from
`ORFStart` unset, `openLeft = true`, `seenStart = false`, an `'M'` clears
`openLeft` and sets `seenStart` without opening a range; a `'*'` at index `i`
emits `[ORFStart, i)` with `openRight = false` when `ORFStart` is set and
`i - ORFStart > 0`, and in all cases resets `ORFStart` to unset and `openLeft`
and `seenStart` to false; any other residue sets `ORFStart := i` when
`(seenStart or openLeft)` holds and `ORFStart` is unset.  The code's run
(`ORFs`) equals the spec machine's run (`specORFs`) on every sequence, and on
`"MAAA*"` it yields exactly the fragment `[1, 4)` with `openLeft = false`,
`openRight = false`. -/
theorem claim_C1_ORFs_implements_spec_machine :
    (∀ (origId : String) (s : List Char), ORFs origId s = specORFs origId s) ∧
    ORFs "id" ['M', 'A', 'A', 'A', '*'] =
      .ok [{ id := "id-[1:4]", sequence := ['A', 'A', 'A'], start := 1, stop := 4,
             openLeft := false, openRight := false }] := by
  refine ⟨fun origId s => ?_, rfl⟩
  exact ORFsAux_eq_specORFsAux origId s s 0 ⟨none, true, false⟩
    (fun j hj => by simp at hj)

/-- C2: whenever the scan ends while an ORF is open — after the last residue
`(seenStart or openLeft)` holds, `ORFStart = some j` and `length - j > 0` —
`ORFs` emits as its last fragment `[j, length)` with `openRight = true` and
the final state's `openLeft` flag. -/
theorem claim_C2_ORFs_final_open_right_fragment (origId : String) (s : List Char)
    (l : List AAReadORF) (j : Nat) (h : ORFs origId s = .ok l)
    (hcond : ((ORFScan s 0 ⟨none, true, false⟩).seenStart ||
              (ORFScan s 0 ⟨none, true, false⟩).openLeft) = true)
    (hstart : (ORFScan s 0 ⟨none, true, false⟩).ORFStart = some j)
    (hlen : s.length - j > 0) :
    ∃ body frag, l = body ++ [frag] ∧ frag.start = j ∧ frag.stop = s.length ∧
      frag.openLeft = (ORFScan s 0 ⟨none, true, false⟩).openLeft ∧
      frag.openRight = true := by
  obtain ⟨body, frag, hl, hmk⟩ :=
    ORFsAux_last_fragment origId s s 0 ⟨none, true, false⟩ l j h hcond hstart hlen
  obtain ⟨h1, h2, h3, h4⟩ := AAReadORF.mk?_ok_fields hmk
  exact ⟨body, frag, hl, h1, h2, h3, h4⟩

/-- C2 witness: the sequence `"AAA"` (no start, no stop) ends inside an open
ORF and yields exactly the fragment `[0, 3)` with `openLeft = true`,
`openRight = true`. -/
theorem claim_C2_ORFs_final_open_right_fragment_witness :
    (ORFs "id" ['A', 'A', 'A'] =
      .ok [{ id := "id-(0:3)", sequence := ['A', 'A', 'A'], start := 0, stop := 3,
             openLeft := true, openRight := true }]) ∧
    ((ORFScan ['A', 'A', 'A'] 0 ⟨none, true, false⟩).seenStart ||
      (ORFScan ['A', 'A', 'A'] 0 ⟨none, true, false⟩).openLeft) = true ∧
    (ORFScan ['A', 'A', 'A'] 0 ⟨none, true, false⟩).ORFStart = some 0 ∧
    (['A', 'A', 'A'] : List Char).length - 0 > 0 ∧
    (∃ body frag,
      [{ id := "id-(0:3)", sequence := ['A', 'A', 'A'], start := 0, stop := 3,
         openLeft := true, openRight := true  : AAReadORF }] = body ++ [frag] ∧
      frag.start = 0 ∧ frag.stop = (['A', 'A', 'A'] : List Char).length ∧
      frag.openLeft = (ORFScan ['A', 'A', 'A'] 0 ⟨none, true, false⟩).openLeft ∧
      frag.openRight = true) :=
  ⟨rfl, rfl, rfl, by decide,
   claim_C2_ORFs_final_open_right_fragment "id" ['A', 'A', 'A'] _ 0 rfl rfl rfl
     (by decide)⟩

/-- C6: every fragment yielded by `ORFs` has strictly positive length: no
yielded fragment has `stop - start = 0`. -/
theorem claim_C6_ORFs_no_zero_length_fragment (origId : String) (s : List Char)
    (l : List AAReadORF) (h : ORFs origId s = .ok l) :
    ∀ o ∈ l, o.stop - o.start ≠ 0 := by
  intro o ho
  have := ORFsAux_start_lt_stop origId s s 0 ⟨none, true, false⟩ l h o ho
  omega

/-- C6 witness: on `"A*MBB*C"` the two yielded fragments both have positive
length. -/
theorem claim_C6_ORFs_no_zero_length_fragment_witness :
    (ORFs "id" ['A', '*', 'M', 'B', 'B', '*', 'C'] =
      .ok [{ id := "id-(0:1]", sequence := ['A'], start := 0, stop := 1,
             openLeft := true, openRight := false },
           { id := "id-[3:5]", sequence := ['B', 'B'], start := 3, stop := 5,
             openLeft := false, openRight := false }]) ∧
    ∀ o ∈ [{ id := "id-(0:1]", sequence := ['A'], start := 0, stop := 1,
             openLeft := true, openRight := false },
           { id := "id-[3:5]", sequence := ['B', 'B'], start := 3, stop := 5,
             openLeft := false, openRight := false  : AAReadORF }],
      o.stop - o.start ≠ 0 :=
  ⟨rfl, claim_C6_ORFs_no_zero_length_fragment "id" ['A', '*', 'M', 'B', 'B', '*', 'C']
    _ rfl⟩

/-- C7: `maximumORFLength` returns the maximum fragment length over `ORFs`
when at least one ORF exists, and fails with the empty-input `ValueError` of
Python's `max` when the translation has zero ORFs. -/
theorem claim_C7_maximumORFLength_max_or_error (origId : String) (s : List Char)
    (l : List AAReadORF) (h : ORFs origId s = .ok l) :
    (l = [] → maximumORFLength origId s = .error "max() arg is an empty sequence") ∧
    (l ≠ [] → ∃ m, maximumORFLength origId s = .ok m ∧
       m ∈ l.map (fun o => o.sequence.length) ∧
       ∀ n ∈ l.map (fun o => o.sequence.length), n ≤ m) := by
  constructor
  · rintro rfl
    simp [maximumORFLength, h, Except.bind]
  · intro hne
    rcases hl : l.map (fun o => o.sequence.length) with _ | ⟨x, xs⟩
    · rw [List.map_eq_nil_iff] at hl
      exact absurd hl hne
    · refine ⟨xs.foldl max x, ?_, ?_, ?_⟩
      · simp [maximumORFLength, h, Except.bind, hl]
      · rw [hl]
        exact foldl_max_mem xs x
      · rw [hl]
        intro n hn
        exact le_foldl_max xs x n hn

/-- C7 witness: the sequence `"M"` has zero ORFs and `maximumORFLength` fails
on it with the empty-input error, while on `"MAAA*"` (one ORF of length 3) it
returns 3. -/
theorem claim_C7_maximumORFLength_max_or_error_witness :
    (ORFs "id" ['M'] = .ok []) ∧
    ((([] : List AAReadORF) = [] →
        maximumORFLength "id" ['M'] = .error "max() arg is an empty sequence") ∧
     (([] : List AAReadORF) ≠ [] → ∃ m, maximumORFLength "id" ['M'] = .ok m ∧
        m ∈ ([] : List AAReadORF).map (fun o => o.sequence.length) ∧
        ∀ n ∈ ([] : List AAReadORF).map (fun o => o.sequence.length), n ≤ m)) ∧
    maximumORFLength "id" ['M', 'A', 'A', 'A', '*'] = .ok 3 :=
  ⟨rfl, claim_C7_maximumORFLength_max_or_error "id" ['M'] [] rfl, rfl⟩

/-- `_makeComplementTable`: start from the identity table over the 256 byte
values and set `table[ord(from)] := ord(to)` for every pair of the complement
data (later pairs overwrite earlier ones, as Python's assignments do). -/
def _makeComplementTable (complementData : List (Char × Char)) : Nat → Nat :=
  complementData.foldl
    (fun table p => fun b => if b = p.1.toNat then p.2.toNat else table b)
    (fun b => b)

/-- Python's `str.translate` with a 256-entry table, applied to one character:
code points below 256 are substituted through the table; any other character
is left unchanged (`str.translate` swallows the lookup error). -/
def translateChar (table : Nat → Nat) (c : Char) : Char :=
  if c.toNat < 256 then Char.ofNat (table c.toNat) else c

/-- Modelled from the spec: `Bio.Data.IUPACData.ambiguous_dna_complement`,
external collaborator data (the DNA base-pairing map `A↔T`, `C↔G` plus the
uppercase IUPAC ambiguity codes) that is not part of this repository. -/
def ambiguous_dna_complement : List (Char × Char) :=
  [('A', 'T'), ('C', 'G'), ('G', 'C'), ('T', 'A'), ('M', 'K'), ('R', 'Y'),
   ('W', 'W'), ('S', 'S'), ('Y', 'R'), ('K', 'M'), ('V', 'B'), ('H', 'D'),
   ('D', 'H'), ('B', 'V'), ('X', 'X'), ('N', 'N')]

/-- Modelled from the spec: `Bio.Data.IUPACData.ambiguous_rna_complement`,
external collaborator data (the RNA base-pairing map, `U` in place of `T`). -/
def ambiguous_rna_complement : List (Char × Char) :=
  [('A', 'U'), ('C', 'G'), ('G', 'C'), ('U', 'A'), ('M', 'K'), ('R', 'Y'),
   ('W', 'W'), ('S', 'S'), ('Y', 'R'), ('K', 'M'), ('V', 'B'), ('H', 'D'),
   ('D', 'H'), ('B', 'V'), ('X', 'X'), ('N', 'N')]

/-- `DNARead.COMPLEMENT_TABLE`. -/
def DNA_COMPLEMENT_TABLE : Nat → Nat := _makeComplementTable ambiguous_dna_complement

/-- `RNARead.COMPLEMENT_TABLE`. -/
def RNA_COMPLEMENT_TABLE : Nat → Nat := _makeComplementTable ambiguous_rna_complement

/-- `_NucleotideRead.reverseComplement`, parameterized by the concrete class's
complement table: reverse the quality (no substitution) when present, apply
the complement table byte-wise to the sequence and reverse it, and return a
read of the same class. -/
def reverseComplement (table : Nat → Nat) (r : Read) : Read :=
  { id := r.id
    sequence := (r.sequence.map (translateChar table)).reverse
    quality := r.quality.map List.reverse }

/-- Modelled from the spec: one codon of `Bio.Seq.translate` (an external
collaborator, not part of this repository): the standard genetic code on
complete codons, `U` read as `T`, stop codons rendered `'*'`, and any codon
containing an ambiguity or padding symbol mapped to the best-effort symbol
`'X'`. -/
def codonToAA (a b c : Char) : Char :=
  let n := fun x => if x = 'U' then 'T' else x
  match n a, n b, n c with
  | 'T', 'T', 'T' => 'F' | 'T', 'T', 'C' => 'F' | 'T', 'T', 'A' => 'L' | 'T', 'T', 'G' => 'L'
  | 'T', 'C', 'T' => 'S' | 'T', 'C', 'C' => 'S' | 'T', 'C', 'A' => 'S' | 'T', 'C', 'G' => 'S'
  | 'T', 'A', 'T' => 'Y' | 'T', 'A', 'C' => 'Y' | 'T', 'A', 'A' => '*' | 'T', 'A', 'G' => '*'
  | 'T', 'G', 'T' => 'C' | 'T', 'G', 'C' => 'C' | 'T', 'G', 'A' => '*' | 'T', 'G', 'G' => 'W'
  | 'C', 'T', 'T' => 'L' | 'C', 'T', 'C' => 'L' | 'C', 'T', 'A' => 'L' | 'C', 'T', 'G' => 'L'
  | 'C', 'C', 'T' => 'P' | 'C', 'C', 'C' => 'P' | 'C', 'C', 'A' => 'P' | 'C', 'C', 'G' => 'P'
  | 'C', 'A', 'T' => 'H' | 'C', 'A', 'C' => 'H' | 'C', 'A', 'A' => 'Q' | 'C', 'A', 'G' => 'Q'
  | 'C', 'G', 'T' => 'R' | 'C', 'G', 'C' => 'R' | 'C', 'G', 'A' => 'R' | 'C', 'G', 'G' => 'R'
  | 'A', 'T', 'T' => 'I' | 'A', 'T', 'C' => 'I' | 'A', 'T', 'A' => 'I' | 'A', 'T', 'G' => 'M'
  | 'A', 'C', 'T' => 'T' | 'A', 'C', 'C' => 'T' | 'A', 'C', 'A' => 'T' | 'A', 'C', 'G' => 'T'
  | 'A', 'A', 'T' => 'N' | 'A', 'A', 'C' => 'N' | 'A', 'A', 'A' => 'K' | 'A', 'A', 'G' => 'K'
  | 'A', 'G', 'T' => 'S' | 'A', 'G', 'C' => 'S' | 'A', 'G', 'A' => 'R' | 'A', 'G', 'G' => 'R'
  | 'G', 'T', 'T' => 'V' | 'G', 'T', 'C' => 'V' | 'G', 'T', 'A' => 'V' | 'G', 'T', 'G' => 'V'
  | 'G', 'C', 'T' => 'A' | 'G', 'C', 'C' => 'A' | 'G', 'C', 'A' => 'A' | 'G', 'C', 'G' => 'A'
  | 'G', 'A', 'T' => 'D' | 'G', 'A', 'C' => 'D' | 'G', 'A', 'A' => 'E' | 'G', 'A', 'G' => 'E'
  | 'G', 'G', 'T' => 'G' | 'G', 'G', 'C' => 'G' | 'G', 'G', 'A' => 'G' | 'G', 'G', 'G' => 'G'
  | _, _, _ => 'X'

/-- Modelled from the spec: `Bio.Seq.translate` (external collaborator),
translating complete codons one amino-acid letter each; in
`_NucleotideRead.translations` it is only ever applied to sequences padded to
a multiple of 3. -/
def translate : List Char → List Char
  | c1 :: c2 :: c3 :: rest => codonToAA c1 c2 c3 :: translate rest
  | _ => []

/-- A translated read (`TranslatedRead.__init__`'s stored fields). -/
structure TranslatedRead where
  id : String
  sequence : List Char
  frame : Nat
  reverseComplemented : Bool
deriving DecidableEq, Repr

/-- `TranslatedRead.__init__`: raises `ValueError` unless the frame is 0, 1 or
2; the identifier is `'%s-frame%d%s'`, an `"rc"` suffix marking a
reverse-complemented translation. -/
def mkTranslatedRead (originalId : String) (sequence : List Char) (frame : Nat)
    (reverseComplemented : Bool) : Except String TranslatedRead :=
  if ¬(frame = 0 ∨ frame = 1 ∨ frame = 2) then
    .error "Frame must be 0, 1, or 2"
  else
    .ok { id := originalId ++ ("-frame" ++ (toString frame ++
            (if reverseComplemented then "rc" else ""))),
          sequence := sequence, frame := frame,
          reverseComplemented := reverseComplemented }

/-- The frame-suffix padding step of `_NucleotideRead.translations`: append
`'N'` bases so the length is a multiple of 3 (`'NN'` when the length is
1 mod 3, `'N'` when it is 2 mod 3, nothing when it is 0 mod 3). -/
def padSuffix (suffix : List Char) : List Char :=
  let lengthMod3 := suffix.length % 3
  if lengthMod3 ≠ 0 then
    suffix ++ (if lengthMod3 = 1 then ['N', 'N'] else ['N'])
  else suffix

/-- `_NucleotideRead.translations`, parameterized by the concrete class's
complement table: for `reverseComplemented` in (False, True) and `frame` in
(0, 1, 2), pick the strand sequence, drop the first `frame` bases, pad to a
codon multiple, translate, and build a `TranslatedRead` carrying frame and
strand provenance. -/
def translations (table : Nat → Nat) (r : Read) : Except String (List TranslatedRead) :=
  let rc := (reverseComplement table r).sequence
  (([false, true].map (fun rcFlag => [0, 1, 2].map (fun f => (rcFlag, f)))).flatten).mapM
    (fun p =>
      let seq := if p.1 then rc else r.sequence
      mkTranslatedRead r.id (translate (padSuffix (seq.drop p.2))) p.2 p.1)

/-- Evaluating `translations` symbolically: on any read it produces exactly
these six translated reads, in this order. -/
theorem translations_eq (table : Nat → Nat) (r : Read) :
    translations table r = .ok
      [{ id := r.id ++ "-frame0", sequence := translate (padSuffix (r.sequence.drop 0)),
         frame := 0, reverseComplemented := false },
       { id := r.id ++ "-frame1", sequence := translate (padSuffix (r.sequence.drop 1)),
         frame := 1, reverseComplemented := false },
       { id := r.id ++ "-frame2", sequence := translate (padSuffix (r.sequence.drop 2)),
         frame := 2, reverseComplemented := false },
       { id := r.id ++ "-frame0rc",
         sequence := translate (padSuffix ((reverseComplement table r).sequence.drop 0)),
         frame := 0, reverseComplemented := true },
       { id := r.id ++ "-frame1rc",
         sequence := translate (padSuffix ((reverseComplement table r).sequence.drop 1)),
         frame := 1, reverseComplemented := true },
       { id := r.id ++ "-frame2rc",
         sequence := translate (padSuffix ((reverseComplement table r).sequence.drop 2)),
         frame := 2, reverseComplemented := true }] := rfl

/-- C3: for every nucleotide read, `translations` yields exactly 6 translated
reads, in the fixed order forward frame 0, 1, 2, then reverse-complement
frame 0, 1, 2; each result carries its frame and strand flag, and its
identifier is the origin read's identifier followed by `-frame<F>` and `rc`
when reverse complemented. -/
theorem claim_C3_translations_six_fixed_order (table : Nat → Nat) (r : Read) :
    ∃ l, translations table r = .ok l ∧ l.length = 6 ∧
      l.map (fun t => (t.frame, t.reverseComplemented, t.id)) =
        [(0, false, r.id ++ "-frame0"), (1, false, r.id ++ "-frame1"),
         (2, false, r.id ++ "-frame2"), (0, true, r.id ++ "-frame0rc"),
         (1, true, r.id ++ "-frame1rc"), (2, true, r.id ++ "-frame2rc")] :=
  ⟨_, translations_eq table r, rfl, rfl⟩

/-- `translate` produces one amino acid per three bases, complete codons
only. -/
theorem translate_length : ∀ l : List Char, (translate l).length = l.length / 3
  | [] => rfl
  | [_] => by simp [translate]
  | [_, _] => by simp [translate]
  | c1 :: c2 :: c3 :: rest => by
      simp only [translate, List.length_cons]
      rw [translate_length rest]
      omega

/-- The padded suffix holds `ceil (l.length / 3)` codons. -/
theorem padSuffix_length_div (l : List Char) :
    (padSuffix l).length / 3 = (l.length + 2) / 3 := by
  simp only [padSuffix]
  split
  · split <;> simp only [List.length_append, List.length_cons, List.length_nil] <;> omega
  · omega

/-- C4: each translation drops the first `frame` bases and right-pads with
`'N'` so the length is a multiple of 3 (two `'N'`s when the remainder is 1,
one when it is 2, none when it is 0); consequently every translation's codon
count equals `ceil ((len seq - frame) / 3)`, here `(len seq - frame + 2) / 3`
in natural-number arithmetic. -/
theorem claim_C4_translation_padding_and_codon_count :
    (∀ (s : List Char) (f : Nat),
       padSuffix (s.drop f) = s.drop f ++
         (if (s.length - f) % 3 = 1 then ['N', 'N']
          else if (s.length - f) % 3 = 2 then ['N'] else [])) ∧
    (∀ (table : Nat → Nat) (r : Read) (l : List TranslatedRead),
       translations table r = .ok l →
       ∀ t ∈ l, t.sequence.length = (r.sequence.length - t.frame + 2) / 3) := by
  constructor
  · intro s f
    have h3 : (s.length - f) % 3 = 0 ∨ (s.length - f) % 3 = 1 ∨
        (s.length - f) % 3 = 2 := by omega
    rcases h3 with h | h | h <;> simp [padSuffix, List.length_drop, h]
  · intro table r l hl t ht
    rw [translations_eq] at hl
    injection hl with hl
    subst hl
    have hrc : (reverseComplement table r).sequence.length = r.sequence.length := by
      simp [reverseComplement]
    simp only [List.mem_cons, List.not_mem_nil, or_false] at ht
    rcases ht with rfl | rfl | rfl | rfl | rfl | rfl <;>
      simp [translate_length, padSuffix_length_div, List.length_drop, hrc]

/-- C4 witness: on the DNA read `"ACGTA"` (length 5): frame 1 pads with two
`'N'`s, and each of the six translations has `ceil ((5 - frame) / 3)`
codons. -/
theorem claim_C4_translation_padding_and_codon_count_witness :
    (padSuffix ((['A', 'C', 'G', 'T', 'A'] : List Char).drop 1) =
       (['A', 'C', 'G', 'T', 'A'] : List Char).drop 1 ++
         (if ((['A', 'C', 'G', 'T', 'A'] : List Char).length - 1) % 3 = 1 then ['N', 'N']
          else if ((['A', 'C', 'G', 'T', 'A'] : List Char).length - 1) % 3 = 2 then ['N']
          else [])) ∧
    (translations DNA_COMPLEMENT_TABLE
        { id := "id", sequence := ['A', 'C', 'G', 'T', 'A'], quality := none } =
      .ok [{ id := "id-frame0", sequence := ['T', 'X'], frame := 0, reverseComplemented := false },
           { id := "id-frame1", sequence := ['R', 'X'], frame := 1, reverseComplemented := false },
           { id := "id-frame2", sequence := ['V'], frame := 2, reverseComplemented := false },
           { id := "id-frame0rc", sequence := ['Y', 'X'], frame := 0, reverseComplemented := true },
           { id := "id-frame1rc", sequence := ['T', 'X'], frame := 1, reverseComplemented := true },
           { id := "id-frame2rc", sequence := ['R'], frame := 2, reverseComplemented := true }]) ∧
    ∀ t ∈ [({ id := "id-frame0", sequence := ['T', 'X'], frame := 0, reverseComplemented := false } : TranslatedRead),
           { id := "id-frame1", sequence := ['R', 'X'], frame := 1, reverseComplemented := false },
           { id := "id-frame2", sequence := ['V'], frame := 2, reverseComplemented := false },
           { id := "id-frame0rc", sequence := ['Y', 'X'], frame := 0, reverseComplemented := true },
           { id := "id-frame1rc", sequence := ['T', 'X'], frame := 1, reverseComplemented := true },
           { id := "id-frame2rc", sequence := ['R'], frame := 2, reverseComplemented := true }],
      t.sequence.length =
        (({ id := "id", sequence := ['A', 'C', 'G', 'T', 'A'], quality := none } : Read).sequence.length
          - t.frame + 2) / 3 :=
  ⟨claim_C4_translation_padding_and_codon_count.1 ['A', 'C', 'G', 'T', 'A'] 1, rfl,
   claim_C4_translation_padding_and_codon_count.2 DNA_COMPLEMENT_TABLE _ _ rfl⟩

/-- Complementing twice is the identity on the unambiguous DNA bases. -/
theorem dna_complement_involutive (c : Char) (h : c ∈ (['A', 'C', 'G', 'T'] : List Char)) :
    translateChar DNA_COMPLEMENT_TABLE (translateChar DNA_COMPLEMENT_TABLE c) = c := by
  fin_cases h <;> rfl

/-- Complementing twice is the identity on the unambiguous RNA bases. -/
theorem rna_complement_involutive (c : Char) (h : c ∈ (['A', 'C', 'G', 'U'] : List Char)) :
    translateChar RNA_COMPLEMENT_TABLE (translateChar RNA_COMPLEMENT_TABLE c) = c := by
  fin_cases h <;> rfl

/-- Double reverse complement is the identity whenever double complementation
is the identity on every character of the sequence. -/
theorem reverseComplement_involutive (table : Nat → Nat) (r : Read)
    (h : ∀ c ∈ r.sequence, translateChar table (translateChar table c) = c) :
    reverseComplement table (reverseComplement table r) = r := by
  cases r with
  | mk id seq q =>
      have hq : (q.map List.reverse).map List.reverse = q := by
        cases q <;> simp
      simp [reverseComplement, hq]
      conv_rhs => rw [← List.map_id seq]
      exact List.map_congr_left (fun c hc => h c hc)

/-- C5: for every DNA (resp. RNA) read whose sequence uses only the
unambiguous bases of its alphabet, applying `reverseComplement` twice returns
the original read (sequence, and the twice-reversed quality, intact). -/
theorem claim_C5_reverseComplement_involution (r : Read) :
    ((∀ c ∈ r.sequence, c ∈ (['A', 'C', 'G', 'T'] : List Char)) →
       reverseComplement DNA_COMPLEMENT_TABLE
         (reverseComplement DNA_COMPLEMENT_TABLE r) = r) ∧
    ((∀ c ∈ r.sequence, c ∈ (['A', 'C', 'G', 'U'] : List Char)) →
       reverseComplement RNA_COMPLEMENT_TABLE
         (reverseComplement RNA_COMPLEMENT_TABLE r) = r) :=
  ⟨fun h => reverseComplement_involutive _ r
     (fun c hc => dna_complement_involutive c (h c hc)),
   fun h => reverseComplement_involutive _ r
     (fun c hc => rna_complement_involutive c (h c hc))⟩

/-- C5 witness: a DNA read over `ACGT` with a quality string, and an RNA read
over `ACGU`, both return to themselves under double reverse complement. -/
theorem claim_C5_reverseComplement_involution_witness :
    (∀ c ∈ ({ id := "d", sequence := ['A', 'C', 'G', 'T'],
              quality := some ['H', 'I', 'J', 'K'] } : Read).sequence,
       c ∈ (['A', 'C', 'G', 'T'] : List Char)) ∧
    reverseComplement DNA_COMPLEMENT_TABLE (reverseComplement DNA_COMPLEMENT_TABLE
        { id := "d", sequence := ['A', 'C', 'G', 'T'], quality := some ['H', 'I', 'J', 'K'] }) =
      { id := "d", sequence := ['A', 'C', 'G', 'T'], quality := some ['H', 'I', 'J', 'K'] } ∧
    (∀ c ∈ ({ id := "r", sequence := ['U', 'G', 'C', 'A'], quality := none } : Read).sequence,
       c ∈ (['A', 'C', 'G', 'U'] : List Char)) ∧
    reverseComplement RNA_COMPLEMENT_TABLE (reverseComplement RNA_COMPLEMENT_TABLE
        { id := "r", sequence := ['U', 'G', 'C', 'A'], quality := none }) =
      { id := "r", sequence := ['U', 'G', 'C', 'A'], quality := none } :=
  ⟨by decide, (claim_C5_reverseComplement_involution _).1 (by decide),
   by decide, (claim_C5_reverseComplement_involution _).2 (by decide)⟩

/-- Python's `str.lower()` applied to the format name, character-wise on the
ASCII format strings used here. -/
def strLower (s : String) : String := String.mk (s.toList.map Char.toLower)

/-- `Read.toString`: render the read in `fasta` or `fastq` format (as a list
of characters), raising `ValueError` for `fastq` on a read without quality
information, or for an unknown format. -/
def Read.toRecord? (r : Read) (format_ : String) : Except String (List Char) :=
  if format_ = "fasta" then
    .ok ('>' :: (r.id.toList ++ ('\n' :: (r.sequence ++ ['\n']))))
  else if format_ = "fastq" then
    match r.quality with
    | none => .error ("Read " ++ (r.id ++ " has no quality information"))
    | some q =>
        .ok ('@' :: (r.id.toList ++ ('\n' :: (r.sequence ++
          ('\n' :: ('+' :: (r.id.toList ++ ('\n' :: (q ++ ['\n'])))))))))
  else .error "Format must be either fasta or fastq."

/-- The state of the destination file of `Reads.save`: absent from the file
system, or present with its contents. -/
inductive FSState where
  | absent
  | file (content : List Char)
deriving DecidableEq, Repr

/-- The writing loop of `Reads.save` for a string filename: `open(filename,
'w')` has truncated the file, each read's rendering is appended in turn; when
`toString` raises `ValueError`, the destination is unlinked and the error
re-raised to the caller. -/
def saveAux (format_ : String) : List Read → List Char → FSState × Except String Unit
  | [], content => (.file content, .ok ())
  | r :: rest, content =>
      match r.toRecord? format_ with
      | .ok s => saveAux format_ rest (content ++ s)
      | .error e => (.absent, .error e)

/-- `Reads.save` to a string filename: lower-case the requested format and
write every read; the result is the final state of the destination file
together with the outcome seen by the caller. -/
def save (reads : List Read) (format_ : String) : FSState × Except String Unit :=
  saveAux (strLower format_) reads []

theorem saveAux_error_absent (format_ : String) :
    ∀ (reads : List Read) (content : List Char) (st : FSState) (e : String),
      saveAux format_ reads content = (st, .error e) → st = .absent := by
  intro reads
  induction reads with
  | nil =>
      intro content st e h
      simp [saveAux, Prod.ext_iff] at h
  | cons r rest ih =>
      intro content st e h
      rcases hr : r.toRecord? format_ with e' | s <;> simp only [saveAux, hr] at h
      · rw [Prod.ext_iff] at h
        exact h.1.symm
      · exact ih (content ++ s) st e h

theorem saveAux_error_of_bad_read (format_ : String) :
    ∀ (reads : List Read) (content : List Char),
      (∃ r ∈ reads, ∃ e, r.toRecord? format_ = .error e) →
      ∃ e, (saveAux format_ reads content).2 = .error e := by
  intro reads
  induction reads with
  | nil =>
      intro content h
      simp at h
  | cons r rest ih =>
      intro content h
      rcases hr : r.toRecord? format_ with e | s
      · exact ⟨e, by simp [saveAux, hr]⟩
      · obtain ⟨r', hr', e', he'⟩ := h
        rcases List.mem_cons.1 hr' with rfl | hmem
        · rw [hr] at he'
          exact Except.noConfusion he'
        · simpa [saveAux, hr] using ih (content ++ s) ⟨r', hmem, e', he'⟩

/-- C8: when `Reads.save` to a filename meets a formatting `ValueError`
partway through writing, the destination file is removed (no partial file
remains) and the error propagates to the caller; and a collection containing
a read that cannot be formatted always produces such an error. -/
theorem claim_C8_save_error_leaves_no_partial_file (reads : List Read) (format_ : String) :
    (∀ st e, save reads format_ = (st, .error e) → st = .absent) ∧
    ((∃ r ∈ reads, ∃ e, Read.toRecord? r (strLower format_) = .error e) →
      ∃ e, (save reads format_).2 = .error e) :=
  ⟨fun st e h => saveAux_error_absent (strLower format_) reads [] st e h,
   fun h => saveAux_error_of_bad_read (strLower format_) reads [] h⟩

/-- C8 witness: saving two reads as FASTQ where the second read has no
quality: the first read is formatted, the second raises, the destination is
absent and the caller sees the error. -/
theorem claim_C8_save_error_leaves_no_partial_file_witness :
    (save [{ id := "a", sequence := ['A'], quality := some ['I'] },
           { id := "b", sequence := ['C'], quality := none }] "FastQ" =
       (.absent, .error "Read b has no quality information")) ∧
    (save [{ id := "a", sequence := ['A'], quality := some ['I'] },
           { id := "b", sequence := ['C'], quality := none }] "FastQ").1 = .absent ∧
    (∃ e, (save [{ id := "a", sequence := ['A'], quality := some ['I'] },
                 { id := "b", sequence := ['C'], quality := none }] "FastQ").2 = .error e) :=
  ⟨rfl,
   (claim_C8_save_error_leaves_no_partial_file _ "FastQ").1 _ _ rfl,
   (claim_C8_save_error_leaves_no_partial_file _ "FastQ").2
     ⟨{ id := "b", sequence := ['C'], quality := none }, by simp, _, rfl⟩⟩

/-- The options of `Reads.filter` / `Reads._filter`.  The five title-related
options (`whitelist`, `blacklist`, `titleRegex`, `negativeTitleRegex`,
`truncateTitlesAfter`) act only through `dark.filter.TitleFilter`, an external
collaborator; it is modelled from the spec as an opaque accept predicate
`titleAccept` on read ids, `none` when no title option is given (`accept`
returning `false` standing for `TitleFilter.REJECT`). -/
structure FilterOptions where
  minLength : Option Nat := none
  maxLength : Option Nat := none
  removeGaps : Bool := false
  titleAccept : Option (String → Bool) := none
  indices : Option (List Nat) := none
  head : Option Nat := none
  removeDuplicates : Bool := false
  modifier : Option (Read → Option Read) := none

/-- The loop of `Reads._filter` over the enumerated reads, with the set of
sequences seen so far (for duplicate removal) carried as a list.  Gap removal
rebuilds the read through `Read.__init__` (`mkRead`) from the gap-stripped
sequence and the *original* quality, so the constructor's `ValueError`
propagates out of the pass. -/
def filterAux (opts : FilterOptions) :
    List Read → Nat → List (List Char) → Except String (List Read)
  | [], _, _ => .ok []
  | r :: rest, readIndex, seen =>
      if opts.head = some readIndex then
        .ok []
      else if (opts.minLength.any fun m => r.sequence.length < m) ||
              (opts.maxLength.any fun m => r.sequence.length > m) then
        filterAux opts rest (readIndex + 1) seen
      else
        (if opts.removeGaps then
           mkRead r.id (r.sequence.filter (fun ch => ch ≠ '-')) r.quality
         else .ok r).bind fun read =>
          if opts.titleAccept.any (fun accept => !(accept read.id)) then
            filterAux opts rest (readIndex + 1) seen
          else if opts.indices.any (fun idxs => !(idxs.contains readIndex)) then
            filterAux opts rest (readIndex + 1) seen
          else if opts.removeDuplicates && seen.contains read.sequence then
            filterAux opts rest (readIndex + 1) seen
          else
            let seen' := if opts.removeDuplicates then read.sequence :: seen else seen
            match opts.modifier with
            | some f =>
                match f read with
                | none => filterAux opts rest (readIndex + 1) seen'
                | some modified =>
                    (filterAux opts rest (readIndex + 1) seen').map
                      (fun out => modified :: out)
            | none =>
                (filterAux opts rest (readIndex + 1) seen').map (fun out => read :: out)

/-- `Reads.filter` over the collection's reads in iteration order:
`Reads.filter` builds a new `Reads` from the `_filter` generator, consuming it
immediately, so a mid-iteration `ValueError` propagates to the caller. -/
def filterReads (opts : FilterOptions) (reads : List Read) : Except String (List Read) :=
  filterAux opts reads 0 []

theorem filterAux_head_take (h : Nat) :
    ∀ (reads : List Read) (i : Nat), i ≤ h →
      filterAux { head := some h } reads i [] = .ok (reads.take (h - i)) := by
  intro reads
  induction reads with
  | nil => intro i _; simp [filterAux]
  | cons r rest ih =>
      intro i hi
      by_cases hih : h = i
      · subst hih
        simp [filterAux]
      · have hlt : i < h := Nat.lt_of_le_of_ne hi (fun e => hih e.symm)
        have : ({ head := some h } : FilterOptions).head = some h := rfl
        rw [filterAux]
        simp only [this, Option.some.injEq, if_neg (fun e : some h = some i => hih (Option.some.inj e))]
        simp only [Option.any_none, Bool.or_self, if_neg (Bool.false_ne_true)]
        rw [ih (i + 1) hlt]
        simp only [bind, Except.bind, Except.map]
        have htake : h - i = (h - (i + 1)) + 1 := by omega
        rw [htake, List.take_succ_cons]
        simp [hih]

/-- Stripping gaps from a sequence that contains one strictly shortens it. -/
theorem gap_filter_length_lt {l : List Char} (h : '-' ∈ l) :
    (l.filter (fun ch => ch ≠ '-')).length < l.length :=
  List.length_filter_lt_length_iff_exists.mpr ⟨'-', h, by simp⟩

/-- Stripping gaps from a gap-free sequence leaves it unchanged. -/
theorem gap_filter_eq_self {l : List Char} (h : '-' ∉ l) :
    l.filter (fun ch => ch ≠ '-') = l := by
  apply List.filter_eq_self.mpr
  intro a ha
  have : a ≠ '-' := fun heq => h (heq ▸ ha)
  simpa using this

theorem mkRead_error_of_ne (id : String) (sequence : List Char) (q : List Char)
    (h : q.length ≠ sequence.length) :
    ∃ e, mkRead id sequence (some q) = .error e := by
  simp only [mkRead]
  rw [if_pos h]
  exact ⟨_, rfl⟩

theorem mkRead_ok_of_eq (id : String) (sequence : List Char) (q : List Char)
    (h : q.length = sequence.length) :
    mkRead id sequence (some q) = .ok ⟨id, sequence, some q⟩ := by
  simp only [mkRead]
  rw [if_neg (by omega)]

theorem filterAux_removeGaps_error :
    ∀ (reads : List Read) (i : Nat) (seen : List (List Char)),
      (∀ r ∈ reads, ∀ q, r.quality = some q → q.length = r.sequence.length) →
      (∃ r ∈ reads, r.quality ≠ none ∧ '-' ∈ r.sequence) →
      ∃ e, filterAux { removeGaps := true } reads i seen = .error e := by
  intro reads
  induction reads with
  | nil =>
      intro i seen _ h
      simp at h
  | cons r rest ih =>
      intro i seen hwf h
      by_cases hoff : r.quality ≠ none ∧ '-' ∈ r.sequence
      · obtain ⟨hqne, hgap⟩ := hoff
        rcases hq : r.quality with _ | q
        · exact absurd hq hqne
        · have hlen := hwf r (List.mem_cons_self r rest) q hq
          have hlt := gap_filter_length_lt hgap
          obtain ⟨e, he⟩ := mkRead_error_of_ne r.id
            (r.sequence.filter (fun ch => ch ≠ '-')) q (by omega)
          refine ⟨e, ?_⟩
          rw [filterAux]
          simp only [ne_eq, decide_not] at he
          simp [hq, he, bind, Except.bind]
      · obtain ⟨r', hmem, hprop⟩ := h
        rcases List.mem_cons.1 hmem with rfl | hmem'
        · exact absurd hprop hoff
        · have hok : mkRead r.id (r.sequence.filter (fun ch => ch ≠ '-')) r.quality =
              .ok ⟨r.id, r.sequence.filter (fun ch => ch ≠ '-'), r.quality⟩ := by
            rcases hq : r.quality with _ | q
            · rfl
            · have hng : '-' ∉ r.sequence := fun hg => hoff ⟨by simp [hq], hg⟩
              have hlen := hwf r (List.mem_cons_self r rest) q hq
              rw [gap_filter_eq_self hng]
              exact mkRead_ok_of_eq r.id r.sequence q hlen
          obtain ⟨e, he⟩ := ih (i + 1) seen
            (fun x hx q hq => hwf x (List.mem_cons_of_mem _ hx) q hq) ⟨r', hmem', hprop⟩
          refine ⟨e, ?_⟩
          rw [filterAux]
          simp only [ne_eq, decide_not] at hok
          simp [hok, he, bind, Except.bind, Except.map]

/-- C10 (implicit): for every well-formed collection (quality, when present,
matching the sequence length, as `Read.__init__` guarantees) that contains a
read with a quality string and at least one gap character, filtering with
removeGaps=True raises `ValueError` instead of yielding a gap-stripped read:
the filter rebuilds the read from the shortened sequence and the original,
unshortened quality. -/
theorem claim_C10_removeGaps_with_quality_raises (reads : List Read)
    (hwf : ∀ r ∈ reads, ∀ q, r.quality = some q → q.length = r.sequence.length)
    (h : ∃ r ∈ reads, r.quality ≠ none ∧ '-' ∈ r.sequence) :
    ∃ e, filterReads { removeGaps := true } reads = .error e :=
  filterAux_removeGaps_error reads 0 [] hwf h

/-- C10 witness: a single read `"A-C"` with quality `"III"` makes
removeGaps filtering fail. -/
theorem claim_C10_removeGaps_with_quality_raises_witness :
    (∀ r ∈ [({ id := "a", sequence := ['A', '-', 'C'],
               quality := some ['I', 'I', 'I'] } : Read)],
       ∀ q, r.quality = some q → q.length = r.sequence.length) ∧
    (∃ r ∈ [({ id := "a", sequence := ['A', '-', 'C'],
               quality := some ['I', 'I', 'I'] } : Read)],
       r.quality ≠ none ∧ '-' ∈ r.sequence) ∧
    (∃ e, filterReads { removeGaps := true }
        [{ id := "a", sequence := ['A', '-', 'C'], quality := some ['I', 'I', 'I'] }] =
      .error e) :=
  ⟨by decide, by decide,
   claim_C10_removeGaps_with_quality_raises _ (by decide) (by decide)⟩

/-- C9 counterexample: the claim says head=2 yields exactly the first 2 reads
*regardless of other filter settings*; but with minLength=5 alongside head=2,
a 5-read collection of length-4 reads yields no reads at all. -/
theorem claim_C9_head_counterexample :
    filterReads { minLength := some 5, head := some 2 }
      [{ id := "r1", sequence := ['A', 'C', 'G', 'T'], quality := none },
       { id := "r2", sequence := ['A', 'C', 'G', 'T'], quality := none },
       { id := "r3", sequence := ['A', 'C', 'G', 'T'], quality := none },
       { id := "r4", sequence := ['A', 'C', 'G', 'T'], quality := none },
       { id := "r5", sequence := ['A', 'C', 'G', 'T'], quality := none }] = .ok [] ∧
    ([({ id := "r1", sequence := ['A', 'C', 'G', 'T'], quality := none } : Read),
      { id := "r2", sequence := ['A', 'C', 'G', 'T'], quality := none },
      { id := "r3", sequence := ['A', 'C', 'G', 'T'], quality := none },
      { id := "r4", sequence := ['A', 'C', 'G', 'T'], quality := none },
      { id := "r5", sequence := ['A', 'C', 'G', 'T'], quality := none }].take 2 ≠
      ([] : List Read)) :=
  ⟨rfl, by decide⟩

/-- C9 (amended): with every other filter option at its default, filtering
with head=n yields exactly the first n reads — the head cutoff is the first
stage of the per-read pipeline and ends the whole pass at index n; in
particular head=2 on a 5-read collection yields exactly the first 2 reads. -/
theorem claim_C9_filter_head_takes_first (reads : List Read) (n : Nat) :
    filterReads { head := some n } reads = .ok (reads.take n) := by
  have h := filterAux_head_take n reads 0 (Nat.zero_le n)
  simpa using h
